import Mathlib

/-!
Verification development for the transcript quality assessment engine
(`transcript_quality_check.py`): a shallow embedding of its text-cleaning,
scoring and folder-scanning functions over `List Char`, together with
theorems settling the specification claims.

Strings are modelled as `List Char`; `float` ratios are modelled as `ℚ`.
Character classes model Python ASCII semantics: `\w` is `[A-Za-z0-9_]`
and whitespace is space, tab, CR, LF, VT, FF.  `str.splitlines` is
modelled with the `\n`, `\r\n`, `\r` line-boundary conventions.
-/

namespace TQC

open List

/-- ASCII word character, Python `\w` at ASCII level. -/
def isWordChar (c : Char) : Bool :=
  (decide ('a' ≤ c) && decide (c ≤ 'z')) ||
  (decide ('A' ≤ c) && decide (c ≤ 'Z')) ||
  (decide ('0' ≤ c) && decide (c ≤ '9')) ||
  c == '_'

/-- Python whitespace at ASCII level (space, tab, LF, CR, VT, FF). -/
def isWsPy (c : Char) : Bool :=
  c == ' ' || c == '\t' || c == '\n' || c == '\r' || c == '\x0b' || c == '\x0c'

/-- ASCII lowercasing, Python `str.lower` restricted to ASCII letters. -/
def toLowerC (c : Char) : Char :=
  if 'A' ≤ c ∧ c ≤ 'Z' then Char.ofNat (c.toNat + 32) else c

/-- Lowercase a character list. -/
def lowerL (l : List Char) : List Char := l.map toLowerC

/-- The apostrophe character. -/
def apoChar : Char := Char.ofNat 39

/-- The backtick character. -/
def btickChar : Char := Char.ofNat 96

/-- The character set `_LEADING_STRIP`/`_TRAILING_STRIP` (BOM, whitespace, straight
and curly quotes). -/
def WRAP_STRIP : List Char := "\uFEFF \t\r\n\"“”‘’".data ++ [apoChar]

/-- The character set `_TRAILING_PUNCT`. -/
def TRAILING_PUNCT : List Char := "!?.,-".data

/-- The extension set used after an anchor match: strip set, punctuation, colon and
semicolon. -/
def EXT_SET : List Char := WRAP_STRIP ++ TRAILING_PUNCT ++ ":;".data

/-- `_MAX_PREFIX_CHARS`. -/
def maxPrefixChars : Nat := 200

/-- `_MAX_SUFFIX_CHARS`. -/
def maxSuffixChars : Nat := 200

/-- `_MAX_HEURISTIC_CHARS`. -/
def maxHeuristicChars : Nat := 240

/-- Python `s.lstrip(set)`: drop leading characters of the set. -/
def lstripSet (l : List Char) (s : List Char) : List Char :=
  l.dropWhile (fun c => s.contains c)

/-- Python `s.rstrip(set)`: drop trailing characters of the set. -/
def rstripSet (l : List Char) (s : List Char) : List Char :=
  (l.reverse.dropWhile (fun c => s.contains c)).reverse

/-- Python `s.strip(set)`: drop the set's characters from both ends. -/
def stripSet (l : List Char) (s : List Char) : List Char :=
  rstripSet (lstripSet l s) s

/-- Python `s.strip()` (no arguments): strip whitespace from both ends. -/
def stripWS (l : List Char) : List Char :=
  ((l.dropWhile isWsPy).reverse.dropWhile isWsPy).reverse

/-- A token produced by `re.finditer(r"\w+", text)`: start offset, end offset
(exclusive) and the matched characters. -/
structure Tok where
  start : Nat
  stop : Nat
  str : List Char
  deriving DecidableEq, Repr

/-- Tokenizer worker: walks the text accumulating the current word run
(start offset and reversed characters). -/
def tokAux : List Char → Nat → Option (Nat × List Char) → List Tok
  | [], _, none => []
  | [], i, some (s, acc) => [⟨s, i, acc.reverse⟩]
  | c :: cs, i, cur =>
    if isWordChar c then
      match cur with
      | none => tokAux cs (i + 1) (some (i, [c]))
      | some (s, acc) => tokAux cs (i + 1) (some (s, c :: acc))
    else
      match cur with
      | none => tokAux cs (i + 1) none
      | some (s, acc) => ⟨s, i, acc.reverse⟩ :: tokAux cs (i + 1) none

/-- All `\w+` tokens of a text with their offsets (`_tokenize_with_pos`). -/
def tokenize (l : List Char) : List Tok := tokAux l 0 none

/-- The token strings of a text (`re.findall(r"\w+", l)`). -/
def tokenStrs (l : List Char) : List (List Char) := (tokenize l).map (fun t => t.str)

/-- The lowercased token strings of a text. -/
def tokenStrsLower (l : List Char) : List (List Char) :=
  (tokenize l).map (fun t => lowerL t.str)

/-- `_tokens_from_phrase`: word tokens of the lowercased phrase. -/
def phraseTokens (p : List Char) : List (List Char) := tokenStrs (lowerL p)

/-- `_normalize_tokens`: word tokens of the lowercased segment. -/
def normTokens (seg : List Char) : List (List Char) := tokenStrs (lowerL seg)

/-- The `INTRO_TRIGGERS` phrase catalog. -/
def INTRO_TRIGGERS : List (List Char) :=
  [ "okay, here is the transcription of the text from the image".data,
    "okay, here is the transcription of the text".data,
    "here is the transcription of the text".data,
    "here is the text transcription".data,
    "here is the transcription".data,
    "here is the text from the image".data,
    "the transcription from the image is".data ]

/-- The `OUTRO_TRIGGERS` phrase catalog. -/
def OUTRO_TRIGGERS : List (List Char) :=
  [ "thank you, would you like me to transcribe another image".data,
    "thank you, anything else you need".data,
    "thank you, anything else i can help with".data,
    "there you go, what else would you like me to do".data,
    "there you go, anything else you need".data,
    "let me know if you need anything else".data,
    "let me know if you need me to transcribe another one".data,
    "let me know if you need me to transcribe another".data,
    "let me know if you need me to transcribe another image".data,
    "please attach more files if you want me to transcribe".data,
    "please attach more files if you want me to transcribe another image".data,
    "please attach more files if you want me to continue".data ]

/-- Forward scan of one phrase over the token stream (the token loop of
`find_prefix`): `rem` is the still-unmatched phrase tokens, `st` records
whether the first phrase token has been anchored.  Returns the end offset of
the completed match. -/
def fpGo (text : List Char) : List Tok → List (List Char) → Bool → Option Nat
  | [], _, _ => none
  | tk :: ts, rem, st =>
    if tk.start > maxPrefixChars then none
    else
      match rem with
      | [] => none
      | p :: ps =>
        if lowerL tk.str = p then
          if st = false ∧ stripSet (text.take tk.start) WRAP_STRIP ≠ [] then none
          else if ps = [] then some tk.stop
          else fpGo text ts ps true
        else fpGo text ts (p :: ps) st

/-- Extend a match end forward over strip characters, punctuation, colon and
semicolon. -/
def extendEnd (text : List Char) (e : Nat) : Nat :=
  e + ((text.drop e).takeWhile (fun c => EXT_SET.contains c)).length

/-- `find_prefix`: first catalog phrase whose token sequence matches anchored at
the start of the text wins; returns the removed span, `[]` when none match. -/
def findPrefixSpan (text : List Char) : List (List Char) → List Char
  | [] => []
  | ph :: rest =>
    let pt := phraseTokens ph
    if pt = [] then findPrefixSpan text rest
    else
      match fpGo text (tokenize text) pt false with
      | some e => text.take (extendEnd text e)
      | none => findPrefixSpan text rest

/-- The tail-smallness test applied by `find_suffix` after a completed backward
match: the tail after the match end, stripped of wrap characters, must be empty
or contain no newline, at most 120 characters and at most 16 word tokens. -/
def tailOkB (text : List Char) (e : Nat) : Bool :=
  let ts := stripSet (text.drop e) WRAP_STRIP
  ts.isEmpty ||
    (!ts.contains '\n' && decide (ts.length ≤ 120) && decide ((tokenize ts).length ≤ 16))

/-- Backward scan of one phrase over the reversed token stream (the token loop
of `find_suffix`): `rem` is the reversed still-unmatched phrase tokens, `mEnd`
the match end once the last phrase token has been seen.  Returns
`(match_start, match_end)` of a completed, tail-accepted match. -/
def fsGo (text : List Char) (tlen : Nat) :
    List Tok → List (List Char) → Option Nat → Option (Nat × Nat)
  | [], _, _ => none
  | tk :: ts, rem, mEnd =>
    if tlen - tk.stop > maxSuffixChars then none
    else
      match rem with
      | [] => none
      | p :: ps =>
        if lowerL tk.str = p then
          let mEnd2 := mEnd.getD tk.stop
          if ps = [] then
            if tailOkB text mEnd2 then some (tk.start, mEnd2) else none
          else fsGo text tlen ts ps (some mEnd2)
        else fsGo text tlen ts (p :: ps) mEnd

/-- Extend a match start backward over strip characters, punctuation, colon and
semicolon. -/
def extendBack (text : List Char) (s : Nat) : Nat :=
  s - ((text.take s).reverse.takeWhile (fun c => EXT_SET.contains c)).length

/-- The `(match_start, match_end)` of the first catalog phrase that completes a
backward suffix match (with its tail accepted), if any. -/
def findSuffixMatch (text : List Char) : List (List Char) → Option (Nat × Nat)
  | [] => none
  | ph :: rest =>
    let pt := phraseTokens ph
    if pt = [] then findSuffixMatch text rest
    else
      match fsGo text text.length (tokenize text).reverse pt.reverse none with
      | some se => some se
      | none => findSuffixMatch text rest

/-- `find_suffix`: the removed suffix span of the first matching catalog phrase,
`[]` when none match. -/
def findSuffixSpan (text : List Char) (phrases : List (List Char)) : List Char :=
  match findSuffixMatch text phrases with
  | some se => rstripSet (text.drop (extendBack text se.1)) WRAP_STRIP
  | none => []

/-- Apostrophe as a singleton string piece (for phrase literals). -/
def apoS : List Char := [apoChar]

/-- Substring test, Python `pat in hay`. -/
def containsStr : List Char → List Char → Bool
  | [], pat => pat.isEmpty
  | c :: t, pat => pat.isPrefixOf (c :: t) || containsStr t pat

/-- Does any phrase of the list occur as a substring? -/
def anyContains (hay : List Char) (pats : List (List Char)) : Bool :=
  pats.any (fun p => containsStr hay p)

/-- Does any token of the segment belong to the keyword set? -/
def anyTokenIn (toks : List (List Char)) (kws : List (List Char)) : Bool :=
  toks.any (fun t => kws.contains t)

/-- The immediately-decisive intro sub-phrases of `_looks_like_intro`. -/
def INTRO_STRONG : List (List Char) :=
  [ "here is the transcription".data,
    "here".data ++ apoS ++ "s the transcription".data,
    "here is your transcript".data,
    "here".data ++ apoS ++ "s your transcript".data,
    "this is the transcription".data,
    "this is your transcript".data,
    "let me transcribe".data,
    "i will transcribe".data,
    "i can provide".data,
    "allow me to transcribe".data,
    "here is the text from".data,
    "here".data ++ apoS ++ "s the text from".data ]

/-- Transcription-related words tested by `_looks_like_intro`. -/
def INTRO_TRANS_WORDS : List (List Char) :=
  ["transcription".data, "transcribe".data, "transcribed".data]

/-- Text-reference context phrases tested by `_looks_like_intro`. -/
def INTRO_TEXT_CTX : List (List Char) :=
  [ "text from the image".data, "text from this image".data,
    "the text from the".data, "the text of the".data ]

/-- The `INTRO_LEADS` keyword set. -/
def INTRO_LEADS : List (List Char) :=
  [ "ok".data, "okay".data, "sure".data, "alright".data, "hello".data, "hi".data,
    "hey".data, "greetings".data, "here".data, "this".data, "let".data, "i".data,
    "we".data ]

/-- Self-referential phrases tested by `_looks_like_intro`. -/
def INTRO_SELF : List (List Char) :=
  [ "here is".data, "this is".data, "your transcript".data, "let me".data,
    "allow me".data, "i will".data,
    "i".data ++ apoS ++ "m going to".data,
    "providing you with".data, "presenting".data ]

/-- Unreadable-image phrases tested by `_looks_like_intro`. -/
def INTRO_BLURRY : List (List Char) :=
  [ "the image is blurry".data,
    "i can".data ++ apoS ++ "t read".data,
    "cannot read".data,
    "unable to transcribe".data,
    "can".data ++ apoS ++ "t transcribe".data ]

/-- The immediately-decisive outro sub-phrases of `_looks_like_outro`. -/
def OUTRO_STRONG : List (List Char) :=
  [ "let me know if you need".data,
    "anything else i can".data,
    "anything else you need".data,
    "would you like me to".data,
    "can i help with anything else".data,
    "need me to transcribe another".data,
    "feel free to ask".data,
    "happy to help further".data,
    "here if you need more".data ]

/-- Offer words combined with "anything else" by `_looks_like_outro`. -/
def OUTRO_OFFER : List (List Char) :=
  [ "transcribe".data, "need".data, "want me to".data,
    "you would like me to".data, "i can".data ]

/-- The `OUTRO_POLITE` keyword set. -/
def OUTRO_POLITE : List (List Char) :=
  [ "thanks".data, "thank".data, "appreciate".data, "happy".data, "glad".data,
    "let".data, "feel".data, "please".data, "ready".data ]

/-- The `OUTRO_KEYWORDS` keyword set. -/
def OUTRO_KEYWORDS : List (List Char) :=
  [ "anything".data, "else".data, "another".data, "need".data, "more".data,
    "help".data, "assist".data, "support".data, "transcribe".data ]

/-- Question-context phrases tested by `_looks_like_outro`. -/
def OUTRO_Q : List (List Char) := ["anything else".data, "need".data]

/-- `_looks_like_intro`: weak-signal classifier for AI intro chatter. -/
def looksLikeIntro (segment : List Char) : Bool :=
  let seg := stripWS segment
  if seg = [] then false
  else if seg.length > maxHeuristicChars then false
  else
    let lower := lowerL seg
    let toks := normTokens seg
    if toks = [] then false
    else if anyContains lower INTRO_STRONG then true
    else
      let hasTransWord := anyContains lower INTRO_TRANS_WORDS
      let hasTextCtx := anyContains lower INTRO_TEXT_CTX
      let hasColon := lower.getLast? == some ':'
      if !(hasTransWord || hasTextCtx || hasColon) then false
      else if anyTokenIn toks INTRO_LEADS || anyContains lower INTRO_SELF then true
      else if anyContains lower INTRO_BLURRY then true
      else false

/-- `_looks_like_outro`: weak-signal classifier for AI outro chatter. -/
def looksLikeOutro (segment : List Char) : Bool :=
  let seg := stripWS segment
  if seg = [] then false
  else if seg.length > maxHeuristicChars then false
  else
    let lower := lowerL seg
    let toks := normTokens seg
    if toks = [] then false
    else if anyContains lower OUTRO_STRONG then true
    else if containsStr lower "anything else".data && anyContains lower OUTRO_OFFER then
      true
    else if anyTokenIn toks OUTRO_POLITE && anyTokenIn toks OUTRO_KEYWORDS then true
    else if seg.contains '?' && anyContains lower OUTRO_Q then true
    else false

/-- `str.splitlines(True)` worker (newline conventions `\n`, `\r\n`, `\r`);
`acc` holds the reversed current line. -/
def slAux : List Char → List Char → List (List Char)
  | [], acc => if acc = [] then [] else [acc.reverse]
  | '\r' :: '\n' :: rest, acc => (acc.reverse ++ ['\r', '\n']) :: slAux rest []
  | '\r' :: rest, acc => (acc.reverse ++ ['\r']) :: slAux rest []
  | '\n' :: rest, acc => (acc.reverse ++ ['\n']) :: slAux rest []
  | c :: cs, acc => slAux cs (c :: acc)

/-- `str.splitlines(True)`: lines with their terminators kept. -/
def splitlinesKeep (l : List Char) : List (List Char) := slAux l []

/-- Character offset of line `i` (`offsets[i]` of `_gather_lines_with_offsets`). -/
def offAt (lines : List (List Char)) (i : Nat) : Nat :=
  ((lines.take i).map List.length).sum

/-- Is a line blank (`not ln.strip()`)? -/
def blankLine (l : List Char) : Bool := (stripWS l).isEmpty

/-- `_detect_intro_heuristic`: heuristic intro segment of the first non-blank
line, absorbing adjacent blank lines; `[]` when nothing is detected. -/
def detectIntroHeuristic (text : List Char) : List Char :=
  let lines := splitlinesKeep text
  let lead := (lines.takeWhile blankLine).length
  if lead ≥ lines.length then []
  else
    let seg := stripSet (lines.getD lead []) WRAP_STRIP
    if looksLikeIntro seg = false then []
    else
      let pb := ((lines.take lead).reverse.takeWhile blankLine).length
      let so := offAt lines (lead - pb)
      let fb := ((lines.drop (lead + 1)).takeWhile blankLine).length
      let eo := offAt lines (lead + 1 + fb)
      (text.drop so).take (eo - so)

/-- `_detect_outro_heuristic`: heuristic outro segment of the last non-blank
line, absorbing adjacent blank lines; `[]` when nothing is detected or when
the text has at most one non-blank line. -/
def detectOutroHeuristic (text : List Char) : List Char :=
  let lines := splitlinesKeep text
  let tb := (lines.reverse.takeWhile blankLine).length
  if tb ≥ lines.length then []
  else
    let idx := lines.length - 1 - tb
    let seg := stripSet (lines.getD idx []) WRAP_STRIP
    let inner := (lines.map stripWS).filter (fun l => l ≠ [])
    if inner.length ≤ 1 then []
    else if looksLikeOutro seg = false then []
    else
      let pb := ((lines.take idx).reverse.takeWhile blankLine).length
      let so := offAt lines (idx - pb)
      let fb := ((lines.drop (idx + 1)).takeWhile blankLine).length
      let eo := offAt lines (idx + 1 + fb)
      (text.drop so).take (eo - so)

/-- The padding substitution of `compute_placeholder_stats`
(`re.sub(r"(\[(?:unsure|blank)\])", r" \1 ", text)`, case-insensitive): each
placeholder occurrence is wrapped in single spaces, scanning left to right. -/
def padPH : List Char → List Char
  | c0 :: c1 :: c2 :: c3 :: c4 :: c5 :: c6 :: c7 :: rest =>
    if lowerL [c0, c1, c2, c3, c4, c5, c6, c7] = "[unsure]".data then
      ' ' :: c0 :: c1 :: c2 :: c3 :: c4 :: c5 :: c6 :: c7 :: ' ' :: padPH rest
    else if lowerL [c0, c1, c2, c3, c4, c5, c6] = "[blank]".data then
      ' ' :: c0 :: c1 :: c2 :: c3 :: c4 :: c5 :: c6 :: ' ' :: padPH (c7 :: rest)
    else c0 :: padPH (c1 :: c2 :: c3 :: c4 :: c5 :: c6 :: c7 :: rest)
  | c0 :: c1 :: c2 :: c3 :: c4 :: c5 :: c6 :: [] =>
    if lowerL [c0, c1, c2, c3, c4, c5, c6] = "[blank]".data then
      [' ', c0, c1, c2, c3, c4, c5, c6, ' ']
    else c0 :: padPH [c1, c2, c3, c4, c5, c6]
  | l => l

/-- `str.split()` worker: split on whitespace runs, discarding empties; `acc`
holds the reversed current word. -/
def splitWsAux : List Char → List Char → List (List Char)
  | [], acc => if acc = [] then [] else [acc.reverse]
  | c :: cs, acc =>
    if isWsPy c then
      if acc = [] then splitWsAux cs [] else acc.reverse :: splitWsAux cs []
    else splitWsAux cs (c :: acc)

/-- Python `str.split()` with no arguments. -/
def splitWs (l : List Char) : List (List Char) := splitWsAux l []

/-- Is a split word one of the two placeholder tokens (case-insensitive)? -/
def isPlaceholderWord (w : List Char) : Bool :=
  lowerL w == "[unsure]".data || lowerL w == "[blank]".data

/-- `compute_placeholder_stats`: `(ratio, count, total)` of placeholder tokens
among the whitespace-split words of the padded text; `(0, 0, 0)` when there are
no words. -/
def compute_placeholder_stats (text : List Char) : ℚ × Nat × Nat :=
  let words := splitWs (padPH text)
  let total := words.length
  if total = 0 then (0, 0, 0)
  else
    let cnt := words.countP isPlaceholderWord
    ((cnt : ℚ) / (total : ℚ), cnt, total)

/-- The placeholder ratio component of `compute_placeholder_stats`. -/
def placeholderRatioOf (text : List Char) : ℚ := (compute_placeholder_stats text).1

/-- `min` on ℚ, written with an explicit comparison so that it evaluates by
`decide`. -/
def minQ (a b : ℚ) : ℚ := if a ≤ b then a else b

/-- `max` on ℚ, written with an explicit comparison so that it evaluates by
`decide`. -/
def maxQ (a b : ℚ) : ℚ := if a ≤ b then b else a

theorem minQ_eq_min (a b : ℚ) : minQ a b = min a b := by
  rw [minQ, min_def]

theorem maxQ_eq_max (a b : ℚ) : maxQ a b = max a b := by
  rw [maxQ, max_def]

/-- The normalized non-blank lines of `compute_repetition_ratio`
(`[ln.strip().lower() for ln in text.splitlines() if ln.strip()]`). -/
def linesNorm (text : List Char) : List (List Char) :=
  ((splitlinesKeep text).filter (fun l => !(stripWS l).isEmpty)).map
    (fun l => lowerL (stripWS l))

/-- The repeated-line ratio of `compute_repetition_ratio`: members of a line
value occurring more than once, over all non-blank lines. -/
def lineRatio (text : List Char) : ℚ :=
  let lns := linesNorm text
  if lns = [] then 0
  else
    let rep := ((lns.dedup.filter (fun v => lns.count v > 1)).map
      (fun v => lns.count v)).sum
    (rep : ℚ) / (lns.length : ℚ)

/-- The sliding 8-word-window ratio of `compute_repetition_ratio`: duplicate
windows over total windows, `0` below 16 words. -/
def ngramRatio (text : List Char) : ℚ :=
  let words := tokenStrs (lowerL text)
  if words.length ≥ 16 then
    let n := words.length - 8 + 1
    let wins := (List.range n).map (fun i => List.intercalate [' '] ((words.drop i).take 8))
    let rep := ((wins.dedup.filter (fun v => wins.count v > 1)).map
      (fun v => wins.count v - 1)).sum
    (rep : ℚ) / ((max n 1 : Nat) : ℚ)
  else 0

/-- `compute_repetition_ratio`: the larger of the line and n-gram signals,
clamped to `[0, 1]`; `0` for empty text. -/
def compute_repetition_ratio (text : List Char) : ℚ :=
  if text = [] then 0
  else maxQ 0 (minQ 1 (maxQ (lineRatio text) (ngramRatio text)))

/-- The scoring function of `compute_confidence`:
`(1 - min(1, placeholder_ratio + repetition_ratio)) * 100`. -/
def confidenceOf (p r : ℚ) : ℚ := (1 - minQ 1 (p + r)) * 100

/-- `compute_confidence` on a text. -/
def compute_confidence (text : List Char) : ℚ :=
  confidenceOf (placeholderRatioOf text) (compute_repetition_ratio text)

/-- `_MD_IMAGE_RE` substitution worker (`!\[[^\]]*\]\([^)]+\)` removed), with
fuel bounding the scan length. -/
def subImagesF : Nat → List Char → List Char
  | 0, l => l
  | _ + 1, [] => []
  | fuel + 1, c :: cs =>
    if c = '!' then
      match cs with
      | '[' :: rest =>
        let alt := rest.takeWhile (fun x => x ≠ ']')
        match rest.drop alt.length with
        | ']' :: '(' :: r2 =>
          let url := r2.takeWhile (fun x => x ≠ ')')
          if url = [] then '!' :: subImagesF fuel cs
          else
            match r2.drop url.length with
            | ')' :: r3 => subImagesF fuel r3
            | _ => '!' :: subImagesF fuel cs
        | _ => '!' :: subImagesF fuel cs
      | _ => c :: subImagesF fuel cs
    else c :: subImagesF fuel cs

/-- Removal of markdown image references. -/
def subImages (l : List Char) : List Char := subImagesF (l.length + 1) l

/-- `_MD_LINK_RE` substitution worker (`\[([^\]]+)\]\([^)]+\)` replaced by the
link text), with fuel bounding the scan length. -/
def subLinksF : Nat → List Char → List Char
  | 0, l => l
  | _ + 1, [] => []
  | fuel + 1, c :: cs =>
    if c = '[' then
      match cs with
      | [] => [c]
      | _ :: _ =>
        let alt := cs.takeWhile (fun x => x ≠ ']')
        if alt = [] then c :: subLinksF fuel cs
        else
          match cs.drop alt.length with
          | ']' :: '(' :: r2 =>
            let url := r2.takeWhile (fun x => x ≠ ')')
            if url = [] then c :: subLinksF fuel cs
            else
              match r2.drop url.length with
              | ')' :: r3 => alt ++ subLinksF fuel r3
              | _ => c :: subLinksF fuel cs
          | _ => c :: subLinksF fuel cs
    else c :: subLinksF fuel cs

/-- Markdown links replaced by their text. -/
def subLinks (l : List Char) : List Char := subLinksF (l.length + 1) l

/-- Length of a heading-marker match of `^\s{0,3}#{1,6}\s+` at this position,
with whether its last character is a newline; `none` when there is no match. -/
def headingMatchLen (l : List Char) : Option (Nat × Bool) :=
  let ws := l.takeWhile isWsPy
  if ws.length ≥ 4 then none
  else
    let k := ws.length
    let hs := ((l.drop k).takeWhile (fun c => c = '#')).length
    if hs = 0 ∨ hs > 6 then none
    else
      let s := ((l.drop (k + hs)).takeWhile isWsPy).length
      if s = 0 then none
      else
        let n := k + hs + s
        some (n, (l.take n).getLast? == some '\n')

/-- Heading-marker substitution worker (multiline `^` anchors tracked by
`atStart`), with fuel bounding the scan length. -/
def headSubF : Nat → Bool → List Char → List Char
  | 0, _, l => l
  | _ + 1, _, [] => []
  | fuel + 1, atStart, c :: cs =>
    if atStart then
      match headingMatchLen (c :: cs) with
      | some nl => headSubF fuel nl.2 ((c :: cs).drop nl.1)
      | none => c :: headSubF fuel (c == '\n') cs
    else c :: headSubF fuel (c == '\n') cs

/-- Removal of markdown heading markers at line starts. -/
def headSub (l : List Char) : List Char := headSubF (l.length + 1) true l

/-- `str.replace(ab, "")` for a two-character marker. -/
def removePair (a b : Char) : List Char → List Char
  | [] => []
  | [c] => [c]
  | c :: d :: rest =>
    if c = a ∧ d = b then removePair a b rest else c :: removePair a b (d :: rest)

/-- `str.replace(ch, "")` for a one-character marker. -/
def removeChar (ch : Char) (l : List Char) : List Char := l.filter (fun c => c ≠ ch)

/-- `re.sub(r"\n{3,}", "\n\n", text)` worker, with fuel bounding the scan
length. -/
def collapseNlF : Nat → List Char → List Char
  | 0, l => l
  | _ + 1, [] => []
  | fuel + 1, c :: cs =>
    if c = '\n' then
      let run := 1 + (cs.takeWhile (fun x => x = '\n')).length
      if run ≥ 3 then '\n' :: '\n' :: collapseNlF fuel (cs.drop (run - 1))
      else c :: collapseNlF fuel cs
    else c :: collapseNlF fuel cs

/-- Collapse runs of three or more newlines to two. -/
def collapseNl (l : List Char) : List Char := collapseNlF (l.length + 1) l

/-- `_strip_markdown_artifacts`: remove images, rewrite links, drop heading
markers, drop emphasis/code markers, collapse blank-line runs, strip. -/
def stripMarkdownArtifacts (text : List Char) : List Char :=
  if text = [] then []
  else
    let c1 := subImages text
    let c2 := subLinks c1
    let c3 := headSub c2
    let m1 := removePair '*' '*' c3
    let m2 := removePair '_' '_' m1
    let m3 := removeChar '*' m2
    let m4 := removeChar '_' m3
    let m5 := removeChar btickChar m4
    stripWS (collapseNl m5)

/-- The intro candidate of `strip_ai_wrapping`: the catalog match, falling back
to the heuristic when the catalog found nothing. -/
def introPick (text : List Char) : List Char :=
  let i0 := findPrefixSpan text INTRO_TRIGGERS
  if i0 = [] then detectIntroHeuristic text else i0

/-- The text after intro removal (`cleaned[len(intro_text):].lstrip(...)` when
the candidate has substance, otherwise the text unchanged). -/
def cleanedAfterIntro (text : List Char) : List Char :=
  if stripWS (introPick text) ≠ [] then
    lstripSet (text.drop (introPick text).length) WRAP_STRIP
  else text

/-- The reported `intro_text` (emptied when the candidate strips to nothing). -/
def introOf (text : List Char) : List Char :=
  if stripWS (introPick text) ≠ [] then introPick text else []

/-- The outro candidate of `strip_ai_wrapping`, computed on the intro-stripped
text: the catalog match, falling back to the heuristic. -/
def outroPick (text : List Char) : List Char :=
  let c1 := cleanedAfterIntro text
  let o0 := findSuffixSpan c1 OUTRO_TRIGGERS
  if o0 = [] then detectOutroHeuristic c1 else o0

/-- The text after outro removal (`cleaned[:-len(outro_text)].rstrip(...)` when
the candidate has substance). -/
def cleanedAfterOutro (text : List Char) : List Char :=
  let c1 := cleanedAfterIntro text
  if stripWS (outroPick text) ≠ [] then
    rstripSet (c1.take (c1.length - (outroPick text).length)) WRAP_STRIP
  else c1

/-- The reported `outro_text` (emptied when the candidate strips to nothing). -/
def outroOf (text : List Char) : List Char :=
  if stripWS (outroPick text) ≠ [] then outroPick text else []

/-- The prefix/suffix removal core of `strip_ai_wrapping` (everything before the
markdown-artifact pass): `(cleaned, intro_text, outro_text)`. -/
def stripCore (text : List Char) : List Char × List Char × List Char :=
  (cleanedAfterOutro text, introOf text, outroOf text)

/-- `strip_ai_wrapping`: `(cleaned, intro_text, outro_text)` — the prefix and
suffix removal of `stripCore` followed by the markdown-artifact pass on the
cleaned component. -/
def strip_ai_wrapping (text : List Char) : List Char × List Char × List Char :=
  (stripMarkdownArtifacts (cleanedAfterOutro text), introOf text, outroOf text)

/-- The trailing-newline normalization applied before a remediation write. -/
def normEnd (c : List Char) : List Char :=
  if c ≠ [] ∧ c.getLast? ≠ some '\n' ∧ c.getLast? ≠ some '\r' then c ++ ['\n'] else c

/-- The on-disk content of a file after one scan pass with remediation enabled
(`scan_folder` writes the normalized cleaned text only when it differs). -/
def remediate (text : List Char) : List Char :=
  let r := strip_ai_wrapping text
  if r.1 ≠ text then normEnd r.1 else text

/-- Python `round` half-to-even on an exact rational. -/
def roundHalfEvenQ (q : ℚ) : ℤ :=
  let f := Rat.floor q
  if q - f < 1 / 2 then f
  else if q - f > 1 / 2 then f + 1
  else if f % 2 = 0 then f else f + 1

/-- `round(q, 2)`. -/
def round2 (q : ℚ) : ℚ := (roundHalfEvenQ (q * 100) : ℚ) / 100

/-- `round(q, 4)`. -/
def round4 (q : ℚ) : ℚ := (roundHalfEvenQ (q * 10000) : ℚ) / 10000

/-- The BOM/whitespace strip set used for the reported removed-intro/outro
fields. -/
def BOM_WS : List Char := "\uFEFF \t\r\n".data

/-- A per-file report entry of `scan_folder` (the fields the claims concern;
`confidence` and the ratios are reported rounded, `rawConfidence` is the exact
value used for threshold filtering). -/
structure ReportEntry where
  file : List Char
  rawConfidence : ℚ
  confidence : ℚ
  placeholderRatio : ℚ
  placeholderCount : Nat
  tokenCount : Nat
  repetitionRatio : ℚ
  removeIntroText : Option (List Char)
  removeOutroText : Option (List Char)
  deriving DecidableEq, Repr

/-- The report entry `scan_folder` builds for one readable file. -/
def mkEntry (fname : List Char) (text : List Char) : ReportEntry :=
  let r := strip_ai_wrapping text
  let st := compute_placeholder_stats r.1
  let rr := compute_repetition_ratio r.1
  let conf := (1 - minQ 1 (st.1 + rr)) * 100
  { file := fname
    rawConfidence := conf
    confidence := round2 conf
    placeholderRatio := round4 st.1
    placeholderCount := st.2.1
    tokenCount := st.2.2
    repetitionRatio := round4 rr
    removeIntroText := if r.2.1 ≠ [] then some (stripSet r.2.1 BOM_WS) else none
    removeOutroText := if r.2.2 ≠ [] then some (stripSet r.2.2 BOM_WS) else none }

/-- The per-file loop of `scan_folder` over the already-sorted file list: a file
is `(name, some content)` when readable and `(name, none)` when reading or
decoding fails; returns `(all, over)`. -/
def processFiles :
    List (List Char × Option (List Char)) → Option ℚ → List ReportEntry × List ReportEntry
  | [], _ => ([], [])
  | f :: rest, th =>
    match f.2 with
    | none => processFiles rest th
    | some t =>
      let e := mkEntry f.1 t
      let r := processFiles rest th
      (e :: r.1,
        match th with
        | some τ => if e.rawConfidence ≤ τ then e :: r.2 else r.2
        | none => r.2)

/-- Lexicographic code-point order on character lists (Python string `<=`). -/
def strLe : List Char → List Char → Bool
  | [], _ => true
  | _ :: _, [] => false
  | a :: as, b :: bs => if a < b then true else if b < a then false else strLe as bs

/-- The file ordering used by `sorted(folder.glob(...))`: by name, lexicographic
by code point. -/
def fileLe (a b : List Char × Option (List Char)) : Prop := strLe a.1 b.1 = true

instance : DecidableRel fileLe := fun a b => instDecidableEqBool (strLe a.1 b.1) true

/-- `scan_folder` (the report-producing part): sort the `.txt` files by name,
skip unreadable ones, and return `(all, over)`; `over` collects entries with
confidence at or below the threshold when one is given.  File rewriting is
modelled separately by `remediate`. -/
def scanFolder (files : List (List Char × Option (List Char))) (th : Option ℚ) :
    List ReportEntry × List ReportEntry :=
  processFiles (List.insertionSort fileLe files) th

/-- Modelled from the spec: the case-insensitive filename order the Scan Result
is claimed to follow (`file-name sorted, case-insensitive`). -/
def ciStrLeSpec (a b : List Char) : Bool := strLe (lowerL a) (lowerL b)

/-! ### Helper lemmas -/

theorem ws_not_word {c : Char} (h : isWsPy c = true) : isWordChar c = false := by
  simp only [isWsPy, Bool.or_eq_true, beq_iff_eq] at h
  rcases h with ((((h | h) | h) | h) | h) | h <;> subst h <;> decide

theorem not_word_toLower {c : Char} (h : isWordChar c = false) : toLowerC c = c := by
  unfold toLowerC
  split
  · next h2 =>
    exfalso
    have : isWordChar c = true := by
      simp [isWordChar, decide_eq_true h2.1, decide_eq_true h2.2]
    simp [this] at h
  · rfl

theorem strLe_total : ∀ a b : List Char, strLe a b = true ∨ strLe b a = true := by
  intro a
  induction a with
  | nil => intro b; left; rfl
  | cons x xs ih =>
    intro b
    cases b with
    | nil => right; rfl
    | cons y ys =>
      rcases lt_trichotomy x y with h | h | h
      · left; simp [strLe, h]
      · subst h
        rcases ih ys with h2 | h2
        · left; simp [strLe, lt_irrefl, h2]
        · right; simp [strLe, lt_irrefl, h2]
      · right; simp [strLe, h]

theorem strLe_trans :
    ∀ a b c : List Char, strLe a b = true → strLe b c = true → strLe a c = true := by
  intro a
  induction a with
  | nil => intro b c _ _; rfl
  | cons x xs ih =>
    intro b c hab hbc
    cases b with
    | nil => simp [strLe] at hab
    | cons y ys =>
      cases c with
      | nil => simp [strLe] at hbc
      | cons z zs =>
        by_cases hxy : x < y
        · by_cases hyz : y < z
          · simp [strLe, lt_trans hxy hyz]
          · by_cases hzy : z < y
            · simp [strLe, hyz, hzy] at hbc
            · have : y = z := le_antisymm (not_lt.mp hzy) (not_lt.mp hyz)
              subst this
              simp [strLe, hxy]
        · by_cases hyx : y < x
          · simp [strLe, hxy, hyx] at hab
          · have : x = y := le_antisymm (not_lt.mp hyx) (not_lt.mp hxy)
            subst this
            simp only [strLe, lt_irrefl, if_false] at hab
            by_cases hyz : x < z
            · simp [strLe, hyz]
            · by_cases hzy : z < x
              · simp [strLe, hyz, hzy] at hbc
              · have : x = z := le_antisymm (not_lt.mp hzy) (not_lt.mp hyz)
                subst this
                simp only [strLe, lt_irrefl, if_false] at hbc ⊢
                exact ih ys zs hab hbc

instance : IsTotal (List Char × Option (List Char)) fileLe :=
  ⟨fun a b => strLe_total a.1 b.1⟩

instance : IsTrans (List Char × Option (List Char)) fileLe :=
  ⟨fun a b c => strLe_trans a.1 b.1 c.1⟩

theorem rstripSet_pref (l s : List Char) : rstripSet l s <+: l := by
  unfold rstripSet
  rw [← List.reverse_suffix, List.reverse_reverse]
  exact List.dropWhile_suffix _

theorem lstripSet_suffix (l s : List Char) : lstripSet l s <:+ l :=
  List.dropWhile_suffix (fun c => s.contains c)

theorem cleanedAfterIntro_suffix (t : List Char) : cleanedAfterIntro t <:+ t := by
  unfold cleanedAfterIntro
  split
  · exact (lstripSet_suffix _ _).trans (List.drop_suffix _ t)
  · exact List.suffix_refl t

theorem cleanedAfterOutro_pref (t : List Char) :
    cleanedAfterOutro t <+: cleanedAfterIntro t := by
  unfold cleanedAfterOutro
  split
  · exact (rstripSet_pref _ _).trans ( List.take_prefix _ _)
  · exact List.prefix_refl _

theorem introOf_empty_cleaned {t : List Char} (h : introOf t = []) :
    cleanedAfterIntro t = t := by
  unfold introOf at h
  unfold cleanedAfterIntro
  split at h
  · next hc =>
    rw [h] at hc
    exact absurd rfl hc
  · next hc => rw [if_neg hc]

theorem outroOf_empty_cleaned {t : List Char} (h : outroOf t = []) :
    cleanedAfterOutro t = cleanedAfterIntro t := by
  unfold outroOf at h
  unfold cleanedAfterOutro
  split at h
  · next hc =>
    rw [h] at hc
    exact absurd rfl hc
  · next hc => rw [if_neg hc]

theorem stripCore_eq (t : List Char) :
    stripCore t = (cleanedAfterOutro t, introOf t, outroOf t) := by
  unfold stripCore
  rfl

theorem strip_ai_wrapping_eq (t : List Char) :
    strip_ai_wrapping t =
      (stripMarkdownArtifacts (cleanedAfterOutro t), introOf t, outroOf t) := by
  unfold strip_ai_wrapping
  rfl

theorem saw_cleaned (t : List Char) :
    (strip_ai_wrapping t).1 = stripMarkdownArtifacts (cleanedAfterOutro t) := by
  rw [strip_ai_wrapping_eq]

theorem saw_intro (t : List Char) : (strip_ai_wrapping t).2.1 = introOf t := by
  rw [strip_ai_wrapping_eq]

theorem saw_outro (t : List Char) : (strip_ai_wrapping t).2.2 = outroOf t := by
  rw [strip_ai_wrapping_eq]

theorem tokAux_some_ne_nil :
    ∀ (l : List Char) (i s : Nat) (acc : List Char), tokAux l i (some (s, acc)) ≠ [] := by
  intro l
  induction l with
  | nil => intro i s acc; simp [tokAux]
  | cons c cs ih =>
    intro i s acc
    rw [tokAux]
    split
    · exact ih (i + 1) s (c :: acc)
    · simp

theorem tokAux_none_eq_nil_iff :
    ∀ (l : List Char) (i : Nat),
      tokAux l i none = [] ↔ ∀ c ∈ l, isWordChar c = false := by
  intro l
  induction l with
  | nil => intro i; simp [tokAux]
  | cons c cs ih =>
    intro i
    rw [tokAux]
    split
    · next hw =>
      constructor
      · intro h; exact absurd h (tokAux_some_ne_nil cs (i + 1) i [c])
      · intro h; exact absurd hw (by simp [h c (List.mem_cons_self c cs)])
    · next hw =>
      rw [ih (i + 1)]
      constructor
      · intro h d hd
        rcases List.mem_cons.mp hd with h2 | h2
        · subst h2; exact Bool.not_eq_true _ ▸ Bool.of_not_eq_true hw
        · exact h d h2
      · intro h d hd; exact h d (List.mem_cons_of_mem c hd)

theorem tokenize_eq_nil_iff (l : List Char) :
    tokenize l = [] ↔ ∀ c ∈ l, isWordChar c = false :=
  tokAux_none_eq_nil_iff l 0

theorem padPH_mem (l : List Char) : ∀ c ∈ padPH l, c ∈ l ∨ c = ' ' := by
  induction l using padPH.induct with
  | case1 c0 c1 c2 c3 c4 c5 c6 c7 rest h ih =>
    intro c hc
    rw [padPH, if_pos h] at hc
    simp only [List.mem_cons] at hc ⊢
    rcases hc with h1 | h1 | h1 | h1 | h1 | h1 | h1 | h1 | h1 | h1 | h1
    all_goals first
      | (right; exact h1)
      | (left; tauto)
      | (rcases ih c h1 with h2 | h2
         · left; tauto
         · right; exact h2)
  | case2 c0 c1 c2 c3 c4 c5 c6 c7 rest h h2 ih =>
    intro c hc
    rw [padPH, if_neg h, if_pos h2] at hc
    simp only [List.mem_cons] at hc ⊢
    rcases hc with h1 | h1 | h1 | h1 | h1 | h1 | h1 | h1 | h1 | h1
    all_goals first
      | (right; exact h1)
      | (left; tauto)
      | (rcases ih c h1 with h3 | h3
         · left; simp only [List.mem_cons] at h3; tauto
         · right; exact h3)
  | case3 c0 c1 c2 c3 c4 c5 c6 c7 rest h h2 ih =>
    intro c hc
    rw [padPH, if_neg h, if_neg h2] at hc
    simp only [List.mem_cons] at hc ⊢
    rcases hc with h1 | h1
    · left; tauto
    · rcases ih c h1 with h3 | h3
      · left; simp only [List.mem_cons] at h3; tauto
      · right; exact h3
  | case4 c0 c1 c2 c3 c4 c5 c6 h =>
    intro c hc
    rw [padPH, if_pos h] at hc
    simp only [List.mem_cons] at hc ⊢
    rcases hc with h1 | h1 | h1 | h1 | h1 | h1 | h1 | h1 | h1 | h1
    all_goals first
      | (right; exact h1)
      | (left; tauto)
  | case5 c0 c1 c2 c3 c4 c5 c6 h ih =>
    intro c hc
    rw [padPH, if_neg h] at hc
    simp only [List.mem_cons] at hc ⊢
    rcases hc with h1 | h1
    · left; tauto
    · rcases ih c h1 with h3 | h3
      · left; simp only [List.mem_cons] at h3
        rcases h3 with h3 | h3 | h3 | h3 | h3 | h3 | h3
        · tauto
        · tauto
        · tauto
        · tauto
        · tauto
        · tauto
        · exact absurd h3 (List.not_mem_nil c)
      · right; exact h3
  | case6 l h1 h2 =>
    intro c hc
    have hpl : padPH l = l := by
      cases l with
      | nil => rfl
      | cons a as =>
        rw [padPH]
        · exact h1
        · exact h2
    rw [hpl] at hc
    left; exact hc

theorem splitWsAux_mem :
    ∀ (l : List Char) (acc : List Char) (w : List Char), w ∈ splitWsAux l acc →
      ∀ c ∈ w, c ∈ l ∨ c ∈ acc := by
  intro l
  induction l with
  | nil =>
    intro acc w hw c hc
    rw [splitWsAux] at hw
    split at hw
    · exact absurd hw (List.not_mem_nil w)
    · rcases List.mem_singleton.mp hw with h
      subst h
      right
      exact List.mem_reverse.mp hc
  | cons a as ih =>
    intro acc w hw c hc
    rw [splitWsAux] at hw
    split at hw
    · split at hw
      · rcases ih [] w hw c hc with h | h
        · left; exact List.mem_cons_of_mem a h
        · exact absurd h (List.not_mem_nil c)
      · rcases List.mem_cons.mp hw with h | h
        · subst h
          right
          exact List.mem_reverse.mp hc
        · rcases ih [] w h c hc with h2 | h2
          · left; exact List.mem_cons_of_mem a h2
          · exact absurd h2 (List.not_mem_nil c)
    · rcases ih (a :: acc) w hw c hc with h | h
      · left; exact List.mem_cons_of_mem a h
      · rcases List.mem_cons.mp h with h2 | h2
        · left; rw [h2]; exact List.mem_cons_self a as
        · right; exact h2

theorem splitWsAux_allWs :
    ∀ (l : List Char), (∀ c ∈ l, isWsPy c = true) → splitWsAux l [] = [] := by
  intro l
  induction l with
  | nil => intro _; rfl
  | cons a as ih =>
    intro h
    rw [splitWsAux]
    rw [if_pos (h a (List.mem_cons_self a as)), if_pos rfl]
    exact ih (fun c hc => h c (List.mem_cons_of_mem a hc))

theorem slAux_mem :
    ∀ (l : List Char) (acc : List Char) (ln : List Char), ln ∈ slAux l acc →
      ∀ c ∈ ln, c ∈ l ∨ c ∈ acc := by
  intro l acc
  induction l, acc using slAux.induct with
  | case1 =>
    intro ln hln c hc
    simp [slAux] at hln
  | case2 acc hacc =>
    intro ln hln c hc
    rw [slAux, if_neg hacc] at hln
    rcases List.mem_singleton.mp hln with h
    subst h
    right; exact List.mem_reverse.mp hc
  | case3 rest acc ih =>
    intro ln hln c hc
    rw [slAux] at hln
    rcases List.mem_cons.mp hln with h | h
    · subst h
      rcases List.mem_append.mp hc with h2 | h2
      · right; exact List.mem_reverse.mp h2
      · left
        rcases List.mem_cons.mp h2 with h3 | h3
        · rw [h3]; exact List.mem_cons_self _ _
        · rcases List.mem_singleton.mp h3 with h4
          rw [h4]
          exact List.mem_cons_of_mem _ (List.mem_cons_self _ _)
    · rcases ih ln h c hc with h2 | h2
      · left
        exact List.mem_cons_of_mem _ (List.mem_cons_of_mem _ h2)
      · exact absurd h2 (List.not_mem_nil c)
  | case4 rest acc hne ih =>
    intro ln hln c hc
    rw [slAux] at hln
    · rcases List.mem_cons.mp hln with h | h
      · subst h
        rcases List.mem_append.mp hc with h2 | h2
        · right; exact List.mem_reverse.mp h2
        · rcases List.mem_singleton.mp h2 with h3
          rw [h3]; left; exact List.mem_cons_self _ _
      · rcases ih ln h c hc with h2 | h2
        · left; exact List.mem_cons_of_mem _ h2
        · exact absurd h2 (List.not_mem_nil c)
    · exact hne
  | case5 rest acc ih =>
    intro ln hln c hc
    rw [slAux] at hln
    rcases List.mem_cons.mp hln with h | h
    · subst h
      rcases List.mem_append.mp hc with h2 | h2
      · right; exact List.mem_reverse.mp h2
      · rcases List.mem_singleton.mp h2 with h3
        rw [h3]; left; exact List.mem_cons_self _ _
    · rcases ih ln h c hc with h2 | h2
      · left; exact List.mem_cons_of_mem _ h2
      · exact absurd h2 (List.not_mem_nil c)
  | case6 a cs acc h1 h2 h3 ih =>
    intro ln hln c hc
    rw [slAux] at hln
    · rcases ih ln hln c hc with h | h
      · left; exact List.mem_cons_of_mem a h
      · rcases List.mem_cons.mp h with h4 | h4
        · rw [h4]; left; exact List.mem_cons_self a cs
        · right; exact h4
    · exact h1
    · exact h2
    · exact h3

theorem fpGo_matched (text : List Char) :
    ∀ (toks : List Tok) (rem : List (List Char)) (st : Bool) (e : Nat),
      fpGo text toks rem st = some e →
      ∃ ms : List Tok, ms <+ toks ∧ ms.map (fun tk => lowerL tk.str) = rem ∧
        (∀ tk ∈ ms, tk.start ≤ maxPrefixChars) ∧
        (st = false → ∀ hd ∈ ms.head?, stripSet (text.take hd.start) WRAP_STRIP = []) := by
  intro toks
  induction toks with
  | nil => intro rem st e h; simp [fpGo] at h
  | cons tk ts ih =>
    intro rem st e h
    cases rem with
    | nil => simp [fpGo] at h
    | cons p ps =>
      rw [fpGo] at h
      by_cases hw : tk.start > maxPrefixChars
      · rw [if_pos hw] at h; exact absurd h (by simp)
      · rw [if_neg hw] at h
        by_cases hm : lowerL tk.str = p
        · rw [if_pos hm] at h
          by_cases ha : st = false ∧ stripSet (text.take tk.start) WRAP_STRIP ≠ []
          · rw [if_pos ha] at h; exact absurd h (by simp)
          · rw [if_neg ha] at h
            have hanch : st = false → stripSet (text.take tk.start) WRAP_STRIP = [] := by
              intro hst
              by_contra hne
              exact ha ⟨hst, hne⟩
            by_cases hps : ps = []
            · subst hps
              refine ⟨[tk], (List.nil_sublist _).cons₂ _, by simp [hm], ?_, ?_⟩
              · intro x hx
                have hx2 := List.mem_singleton.mp hx
                rw [hx2]
                exact Nat.le_of_not_lt hw
              · intro hst hd hhd
                simp only [List.head?_cons, Option.mem_def, Option.some.injEq] at hhd
                rw [← hhd]
                exact hanch hst
            · rw [if_neg hps] at h
              obtain ⟨ms, hsub, hmap, hwin, _⟩ := ih ps true e h
              refine ⟨tk :: ms, hsub.cons₂ _, by simp [hm, hmap], ?_, ?_⟩
              · intro x hx
                rcases List.mem_cons.mp hx with hx2 | hx2
                · rw [hx2]; exact Nat.le_of_not_lt hw
                · exact hwin x hx2
              · intro hst hd hhd
                simp only [List.head?_cons, Option.mem_def, Option.some.injEq] at hhd
                rw [← hhd]
                exact hanch hst
        · rw [if_neg hm] at h
          obtain ⟨ms, hsub, hmap, hwin, hanc⟩ := ih (p :: ps) st e h
          exact ⟨ms, hsub.cons _, hmap, hwin, hanc⟩

theorem fsGo_matched (text : List Char) (tlen : Nat) :
    ∀ (toks : List Tok) (rem : List (List Char)) (mEnd : Option Nat) (se : Nat × Nat),
      fsGo text tlen toks rem mEnd = some se →
      ∃ ms : List Tok, ms <+ toks ∧ ms.map (fun tk => lowerL tk.str) = rem ∧
        ∀ tk ∈ ms, tlen - tk.stop ≤ maxSuffixChars := by
  intro toks
  induction toks with
  | nil => intro rem mEnd se h; simp [fsGo] at h
  | cons tk ts ih =>
    intro rem mEnd se h
    cases rem with
    | nil => simp [fsGo] at h
    | cons p ps =>
      rw [fsGo] at h
      by_cases hw : tlen - tk.stop > maxSuffixChars
      · rw [if_pos hw] at h; exact absurd h (by simp)
      · rw [if_neg hw] at h
        by_cases hm : lowerL tk.str = p
        · rw [if_pos hm] at h
          by_cases hps : ps = []
          · subst hps
            refine ⟨[tk], (List.nil_sublist _).cons₂ _, by simp [hm], ?_⟩
            intro x hx
            have hx2 := List.mem_singleton.mp hx
            rw [hx2]
            exact Nat.le_of_not_lt hw
          · rw [if_neg hps] at h
            obtain ⟨ms, hsub, hmap, hwin⟩ := ih ps _ se h
            refine ⟨tk :: ms, hsub.cons₂ _, by simp [hm, hmap], ?_⟩
            intro x hx
            rcases List.mem_cons.mp hx with hx2 | hx2
            · rw [hx2]; exact Nat.le_of_not_lt hw
            · exact hwin x hx2
        · rw [if_neg hm] at h
          obtain ⟨ms, hsub, hmap, hwin⟩ := ih (p :: ps) mEnd se h
          exact ⟨ms, hsub.cons _, hmap, hwin⟩

theorem fsGo_tailOk (text : List Char) (tlen : Nat) :
    ∀ (toks : List Tok) (rem : List (List Char)) (mEnd : Option Nat) (s e : Nat),
      fsGo text tlen toks rem mEnd = some (s, e) → tailOkB text e = true := by
  intro toks
  induction toks with
  | nil => intro rem mEnd s e h; simp [fsGo] at h
  | cons tk ts ih =>
    intro rem mEnd s e h
    cases rem with
    | nil => simp [fsGo] at h
    | cons p ps =>
      rw [fsGo] at h
      by_cases hw : tlen - tk.stop > maxSuffixChars
      · rw [if_pos hw] at h; exact absurd h (by simp)
      · rw [if_neg hw] at h
        by_cases hm : lowerL tk.str = p
        · rw [if_pos hm] at h
          by_cases hps : ps = []
          · subst hps
            simp only [if_pos rfl] at h
            by_cases ht : tailOkB text (mEnd.getD tk.stop) = true
            · rw [if_pos ht] at h
              have he : mEnd.getD tk.stop = e := congrArg Prod.snd (Option.some.inj h)
              rw [← he]
              exact ht
            · rw [if_neg ht] at h; exact absurd h (by simp)
          · rw [if_neg hps] at h
            exact ih ps _ s e h
        · rw [if_neg hm] at h
          exact ih (p :: ps) mEnd s e h

theorem findSuffixMatch_tailOk (text : List Char) :
    ∀ (phrases : List (List Char)) (s e : Nat),
      findSuffixMatch text phrases = some (s, e) → tailOkB text e = true := by
  intro phrases
  induction phrases with
  | nil => intro s e h; simp [findSuffixMatch] at h
  | cons ph rest ih =>
    intro s e h
    rw [findSuffixMatch] at h
    by_cases hpt : phraseTokens ph = []
    · rw [if_pos hpt] at h; exact ih s e h
    · rw [if_neg hpt] at h
      cases hf : fsGo text text.length (tokenize text).reverse (phraseTokens ph).reverse
          none with
      | some se =>
        rw [hf] at h
        have hse : se = (s, e) := Option.some.inj h
        subst hse
        exact fsGo_tailOk text text.length _ _ _ s e hf
      | none => rw [hf] at h; exact ih s e h

theorem findPrefixSpan_matched (text : List Char) :
    ∀ (phrases : List (List Char)), findPrefixSpan text phrases ≠ [] →
      ∃ ph ∈ phrases, phraseTokens ph ≠ [] ∧ phraseTokens ph <+ tokenStrsLower text ∧
        ∃ ms : List Tok, ms <+ tokenize text ∧
          ms.map (fun tk => lowerL tk.str) = phraseTokens ph ∧
          (∀ tk ∈ ms, tk.start ≤ maxPrefixChars) ∧
          ∃ tk0, ms.head? = some tk0 ∧
            stripSet (text.take tk0.start) WRAP_STRIP = [] := by
  intro phrases
  induction phrases with
  | nil => intro h; simp [findPrefixSpan] at h
  | cons ph rest ih =>
    intro h
    rw [findPrefixSpan] at h
    by_cases hpt : phraseTokens ph = []
    · rw [if_pos hpt] at h
      obtain ⟨q, hq, h2⟩ := ih h
      exact ⟨q, List.mem_cons_of_mem _ hq, h2⟩
    · rw [if_neg hpt] at h
      cases hf : fpGo text (tokenize text) (phraseTokens ph) false with
      | some e =>
        obtain ⟨ms, hsub, hmap, hwin, hanc⟩ := fpGo_matched text (tokenize text) _ _ _ hf
        have hsubL : phraseTokens ph <+ tokenStrsLower text := by
          have := hsub.map (fun tk => lowerL tk.str)
          rw [hmap] at this
          simpa [tokenStrsLower] using this
        cases ms with
        | nil => exact absurd hmap.symm hpt
        | cons m0 mrest =>
          refine ⟨ph, List.mem_cons_self _ _, hpt, hsubL,
            m0 :: mrest, hsub, hmap, hwin, m0, rfl, ?_⟩
          exact hanc rfl m0 rfl
      | none =>
        rw [hf] at h
        obtain ⟨q, hq, h2⟩ := ih h
        exact ⟨q, List.mem_cons_of_mem _ hq, h2⟩

theorem findSuffixMatch_matched (text : List Char) :
    ∀ (phrases : List (List Char)) (se : Nat × Nat),
      findSuffixMatch text phrases = some se →
      ∃ ph ∈ phrases, phraseTokens ph ≠ [] ∧ phraseTokens ph <+ tokenStrsLower text ∧
        ∃ ms : List Tok, ms <+ tokenize text ∧
          ms.map (fun tk => lowerL tk.str) = phraseTokens ph ∧
          ∀ tk ∈ ms, text.length - tk.stop ≤ maxSuffixChars := by
  intro phrases
  induction phrases with
  | nil => intro se h; simp [findSuffixMatch] at h
  | cons ph rest ih =>
    intro se h
    rw [findSuffixMatch] at h
    by_cases hpt : phraseTokens ph = []
    · rw [if_pos hpt] at h
      obtain ⟨q, hq, h2⟩ := ih se h
      exact ⟨q, List.mem_cons_of_mem _ hq, h2⟩
    · rw [if_neg hpt] at h
      cases hf : fsGo text text.length (tokenize text).reverse (phraseTokens ph).reverse
          none with
      | some se2 =>
        obtain ⟨ms, hsub, hmap, hwin⟩ := fsGo_matched text text.length _ _ _ se2 hf
        have hsub2 : ms.reverse <+ tokenize text := by
          have := hsub.reverse
          rwa [List.reverse_reverse] at this
        have hmap2 : ms.reverse.map (fun tk => lowerL tk.str) = phraseTokens ph := by
          rw [List.map_reverse, hmap, List.reverse_reverse]
        have hsubL : phraseTokens ph <+ tokenStrsLower text := by
          have := hsub2.map (fun tk => lowerL tk.str)
          rw [hmap2] at this
          simpa [tokenStrsLower] using this
        refine ⟨ph, List.mem_cons_self _ _, hpt, hsubL, ms.reverse, hsub2, hmap2, ?_⟩
        intro x hx
        exact hwin x (List.mem_reverse.mp hx)
      | none =>
        rw [hf] at h
        obtain ⟨q, hq, h2⟩ := ih se h
        exact ⟨q, List.mem_cons_of_mem _ hq, h2⟩

theorem findSuffixSpan_matched (text : List Char) (phrases : List (List Char))
    (h : findSuffixSpan text phrases ≠ []) :
    ∃ ph ∈ phrases, phraseTokens ph ≠ [] ∧ phraseTokens ph <+ tokenStrsLower text ∧
      ∃ ms : List Tok, ms <+ tokenize text ∧
        ms.map (fun tk => lowerL tk.str) = phraseTokens ph ∧
        ∀ tk ∈ ms, text.length - tk.stop ≤ maxSuffixChars := by
  rw [findSuffixSpan] at h
  cases hm : findSuffixMatch text phrases with
  | some se => exact findSuffixMatch_matched text phrases se hm
  | none => rw [hm] at h; exact absurd rfl h

theorem mkEntry_file (a t : List Char) : (mkEntry a t).file = a := rfl

theorem processFiles_skip :
    ∀ (l : List (List Char × Option (List Char))) (th : Option ℚ),
      processFiles l th = processFiles (l.filter (fun f => f.2.isSome)) th := by
  intro l
  induction l with
  | nil => intro th; rfl
  | cons f rest ih =>
    intro th
    obtain ⟨name, c⟩ := f
    cases c with
    | none => simp [processFiles, ih th]
    | some t => simp [processFiles, ih th]

theorem processFiles_map_file :
    ∀ (l : List (List Char × Option (List Char))) (th : Option ℚ),
      (processFiles l th).1.map (fun e => e.file) =
        (l.filter (fun f => f.2.isSome)).map (fun f => f.1) := by
  intro l
  induction l with
  | nil => intro th; rfl
  | cons f rest ih =>
    intro th
    obtain ⟨name, c⟩ := f
    cases c with
    | none => simp [processFiles, ih th]
    | some t => simp [processFiles, ih th, mkEntry_file]

theorem processFiles_over_filter :
    ∀ (l : List (List Char × Option (List Char))) (τ : ℚ),
      (processFiles l (some τ)).2 =
        (processFiles l (some τ)).1.filter (fun e => decide (e.rawConfidence ≤ τ)) := by
  intro l
  induction l with
  | nil => intro τ; rfl
  | cons f rest ih =>
    intro τ
    obtain ⟨name, c⟩ := f
    cases c with
    | none => simp [processFiles, ih τ]
    | some t =>
      simp only [processFiles, ih τ, List.filter_cons]
      by_cases hc : (mkEntry name t).rawConfidence ≤ τ
      · simp [hc]
      · simp [hc]

theorem placeholderRatio_nonneg (t : List Char) : 0 ≤ placeholderRatioOf t := by
  unfold placeholderRatioOf compute_placeholder_stats
  simp only
  split
  · simp
  · simp only
    positivity

theorem rep_nonneg (t : List Char) : 0 ≤ compute_repetition_ratio t := by
  unfold compute_repetition_ratio
  split
  · exact le_refl 0
  · rw [maxQ_eq_max]
    exact le_max_left 0 _

theorem rep_le_one (t : List Char) : compute_repetition_ratio t ≤ 1 := by
  unfold compute_repetition_ratio
  split
  · exact zero_le_one
  · rw [maxQ_eq_max, minQ_eq_min]
    exact max_le zero_le_one (min_le_left 1 _)

theorem no_word_no_placeholder {t : List Char}
    (h : ∀ c ∈ t, isWordChar c = false) :
    ∀ w ∈ splitWs (padPH t), isPlaceholderWord w = false := by
  intro w hw
  by_contra hne
  have hp : isPlaceholderWord w = true := by
    cases hb : isPlaceholderWord w
    · exact absurd hb hne
    · rfl
  have hmem : ∀ c ∈ w, c ∈ t ∨ c = ' ' := by
    intro c hc
    rcases splitWsAux_mem (padPH t) [] w hw c hc with h2 | h2
    · exact padPH_mem t c h2
    · exact absurd h2 (List.not_mem_nil c)
  have key : ∀ c ∈ w, isWordChar (toLowerC c) = false := by
    intro c hc
    rcases hmem c hc with h2 | h2
    · rw [not_word_toLower (h c h2)]; exact h c h2
    · rw [h2]; decide
  simp only [isPlaceholderWord, Bool.or_eq_true, beq_iff_eq] at hp
  rcases hp with hp | hp
  · have hu : 'u' ∈ lowerL w := by rw [hp]; decide
    rcases List.mem_map.mp hu with ⟨c, hc, hcu⟩
    have := key c hc
    rw [hcu] at this
    exact absurd this (by decide)
  · have hb : 'b' ∈ lowerL w := by rw [hp]; decide
    rcases List.mem_map.mp hb with ⟨c, hc, hcb⟩
    have := key c hc
    rw [hcb] at this
    exact absurd this (by decide)

theorem zero_tokens_ratio {t : List Char} (h : tokenize t = []) :
    placeholderRatioOf t = 0 := by
  have hnw := (tokenize_eq_nil_iff t).mp h
  unfold placeholderRatioOf compute_placeholder_stats
  simp only
  split
  · rfl
  · simp only
    have hcnt : (splitWs (padPH t)).countP isPlaceholderWord = 0 := by
      rw [List.countP_eq_zero]
      intro w hw
      simp [no_word_no_placeholder hnw w hw]
    rw [hcnt]
    simp

theorem allWs_stripWS {l : List Char} (h : ∀ c ∈ l, isWsPy c = true) :
    stripWS l = [] := by
  unfold stripWS
  have h1 : l.dropWhile isWsPy = [] := List.dropWhile_eq_nil_iff.mpr h
  rw [h1]
  rfl

theorem allWs_conf {t : List Char} (h : ∀ c ∈ t, isWsPy c = true) :
    compute_confidence t = 100 ∧ placeholderRatioOf t = 0 := by
  have hpad : ∀ c ∈ padPH t, isWsPy c = true := by
    intro c hc
    rcases padPH_mem t c hc with h2 | h2
    · exact h c h2
    · rw [h2]; decide
  have hsplit : splitWs (padPH t) = [] := splitWsAux_allWs (padPH t) hpad
  have hstats : compute_placeholder_stats t = (0, 0, 0) := by
    simp only [compute_placeholder_stats]
    rw [hsplit]
    rfl
  have hratio : placeholderRatioOf t = 0 := by
    unfold placeholderRatioOf
    rw [hstats]
  have hrep : compute_repetition_ratio t = 0 := by
    unfold compute_repetition_ratio
    split
    · rfl
    · have hline : lineRatio t = 0 := by
        unfold lineRatio
        have hlines : linesNorm t = [] := by
          unfold linesNorm
          have hemp : ∀ ln ∈ splitlinesKeep t, (stripWS ln).isEmpty = true := by
            intro ln hln
            have hlnws : ∀ c ∈ ln, isWsPy c = true := by
              intro c hc
              rcases slAux_mem t [] ln hln c hc with h2 | h2
              · exact h c h2
              · exact absurd h2 (List.not_mem_nil c)
            rw [allWs_stripWS hlnws]
            rfl
          have hfil : (splitlinesKeep t).filter (fun l => !(stripWS l).isEmpty) = [] := by
            rw [List.filter_eq_nil_iff]
            intro ln hln
            simp [hemp ln hln]
          rw [hfil]
          rfl
        simp [hlines]
      have hng : ngramRatio t = 0 := by
        unfold ngramRatio
        have htk : tokenize (lowerL t) = [] := by
          rw [tokenize_eq_nil_iff]
          intro c hc
          rcases List.mem_map.mp hc with ⟨d, hd, hdc⟩
          have hdw : isWsPy d = true := h d hd
          rw [← hdc, not_word_toLower (ws_not_word hdw)]
          exact ws_not_word hdw
        have : tokenStrs (lowerL t) = [] := by
          unfold tokenStrs
          rw [htk]
          rfl
        rw [this]
        simp
      rw [hline, hng]
      simp [maxQ, minQ]
  constructor
  · unfold compute_confidence confidenceOf
    rw [hratio, hrep]
    norm_num [minQ]
  · exact hratio

/-! ### Concrete example texts -/

/-- The end-to-end example input of the spec (`a.txt`). -/
def c4Input : List Char :=
  "Okay, here is the transcription of the text:\n[00:01] Hello there.\n[blank] [unsure]\nLet me know if you need anything else.\n".data

/-- The example filename. -/
def c4Name : List Char := "a.txt".data

/-- The example text after intro removal, before outro removal. -/
def cAfterIntroText : List Char :=
  "[00:01] Hello there.\n[blank] [unsure]\nLet me know if you need anything else.\n".data

/-- A text whose catalog prefix match interleaves an extra word token. -/
def c3Text : List Char := "here X is the transcription: hello".data

/-- A text whose accepted suffix match leaves a raw tail containing a newline. -/
def c6CexText : List Char := "Hi.\nLet me know if you need anything else.\n".data

/-- The spec's anti-over-stripping example: outro phrase followed by
substantial trailing content. -/
def c6SpecExample : List Char :=
  "Transcript body.\nOkay let me know if you need anything else.\n\nReal trailing content here unrelated.".data

/-- A chatter-free file whose markdown cleanup is not idempotent. -/
def c5First : List Char := "## # title\nmore\n".data

/-- Its remediated content, still rewritten by a second pass. -/
def c5Snd : List Char := "# title\nmore\n".data

/-- A single-line document the intro heuristic strips entirely. -/
def c10Intro : List Char := "This is the transcription:".data

/-- Two readable files whose names order differently case-sensitively and
case-insensitively. -/
def c8Files : List (List Char × Option (List Char)) :=
  [("B.txt".data, some "x".data), ("a.txt".data, some "y".data)]

/-! ### Claims -/

set_option maxHeartbeats 4000000 in
/-- C1 counterexample: `strip_ai_wrapping` ends with the markdown-artifact pass,
which deletes interior characters: on `"a*b"` the cleaned text is `"ab"`, which
is not a contiguous substring of the input, refuting the claim that the cleaned
text is always obtained by prefix and suffix removal alone. -/
theorem C1_counterexample :
    (strip_ai_wrapping "a*b".data).1 = "ab".data ∧
    ¬ ("ab".data <:+: "a*b".data) := by
  constructor
  · decide
  · decide

/-- C1 (amended): the text produced by the prefix-removal and suffix-removal
steps of `strip_ai_wrapping` (before the markdown-artifact pass) is a
contiguous substring of the input — nothing interior is removed or reordered
by those steps — and the final cleaned text is exactly the markdown-artifact
pass applied to that substring. -/
theorem C1_amended_ok (text : List Char) :
    (stripCore text).1 <:+: text ∧
    (strip_ai_wrapping text).1 = stripMarkdownArtifacts (stripCore text).1 := by
  constructor
  · rw [stripCore_eq]
    dsimp only
    exact List.IsInfix.trans ( List.IsPrefix.isInfix (cleanedAfterOutro_pref text))
      ( List.IsSuffix.isInfix (cleanedAfterIntro_suffix text))
  · rw [saw_cleaned, stripCore_eq]

/-- The C2 counterexample text: no word tokens, two identical non-blank
lines. -/
def c2CexText : List Char := "!!!\n!!!\n".data

theorem c2Cex_lineRatio : lineRatio c2CexText = 1 := by
  unfold lineRatio
  have h1 : linesNorm c2CexText = ["!!!".data, "!!!".data] := by decide
  rw [h1]
  rw [if_neg (by decide)]
  have h2 : ((["!!!".data, "!!!".data].dedup.filter
      (fun v => ["!!!".data, "!!!".data].count v > 1)).map
      (fun v => ["!!!".data, "!!!".data].count v)).sum = 2 := by decide
  rw [h2]
  norm_num

theorem c2Cex_ngramRatio : ngramRatio c2CexText = 0 := by
  unfold ngramRatio
  have h1 : tokenStrs (lowerL c2CexText) = [] := by decide
  rw [h1]
  norm_num

theorem c2Cex_confidence : compute_confidence c2CexText = 0 := by
  have hrep : compute_repetition_ratio c2CexText = 1 := by
    unfold compute_repetition_ratio
    rw [if_neg (by decide), c2Cex_lineRatio, c2Cex_ngramRatio]
    norm_num [maxQ, minQ]
  have hpr : placeholderRatioOf c2CexText = 0 := zero_tokens_ratio (by decide)
  unfold compute_confidence confidenceOf
  rw [hrep, hpr]
  norm_num [minQ]

/-- C2 counterexample: the text `"!!!\n!!!\n"` has zero word tokens, yet its
confidence is 0 rather than 100, because the repeated non-blank lines drive the
repetition ratio to 1. -/
theorem C2_counterexample :
    tokenize c2CexText = [] ∧
    compute_confidence c2CexText ≠ 100 := by
  constructor
  · decide
  · rw [c2Cex_confidence]
    norm_num

/-- C2 (amended): for every text with zero word tokens the placeholder ratio is
0, and for every whitespace-only text (zero whitespace-split words) the
confidence is 100 and the placeholder ratio is 0; a zero-word-token text can
still score below 100 through line repetition. -/
theorem C2_amended_ok :
    (∀ t : List Char, tokenize t = [] → placeholderRatioOf t = 0) ∧
    (∀ t : List Char, (∀ c ∈ t, isWsPy c = true) →
      compute_confidence t = 100 ∧ placeholderRatioOf t = 0) :=
  ⟨fun _ h => zero_tokens_ratio h, fun _ h => allWs_conf h⟩

set_option maxHeartbeats 4000000 in
/-- C2 witness: the amended claim evaluated at `"???"` (zero word tokens) and
at the whitespace-only text `" \n"`. -/
theorem C2_witness :
    placeholderRatioOf "???".data = 0 ∧ compute_confidence " \n".data = 100 :=
  ⟨C2_amended_ok.1 "???".data (by decide),
   (C2_amended_ok.2 " \n".data (by decide)).1⟩

set_option maxHeartbeats 4000000 in
/-- C3 counterexample: `find_prefix` skips non-matching tokens instead of
aborting, so on `"here X is the transcription: hello"` it strips a non-empty
prefix although no catalog phrase occurs as a contiguous token sequence — the
token `X` is interleaved between the matched tokens. -/
theorem C3_counterexample :
    findPrefixSpan c3Text INTRO_TRIGGERS = "here X is the transcription: ".data ∧
    findPrefixSpan c3Text INTRO_TRIGGERS ≠ [] ∧
    ∀ ph ∈ INTRO_TRIGGERS, ¬ (phraseTokens ph <:+: tokenStrsLower c3Text) := by
  refine ⟨by decide, by decide, by decide⟩

/-- C3 (amended): `find_prefix` (and symmetrically `find_suffix`) returns a
non-empty segment only when the tokens of some non-empty catalog phrase are
matched, case-insensitively and in order, by a sub-list `ms` of the text's
token sequence — other word tokens may be interleaved between the matched
tokens — where every matched token lies inside the bounded character window
(start offset at most `_MAX_PREFIX_CHARS` in the prefix case, at most
`_MAX_SUFFIX_CHARS` characters before the end of the text in the suffix case),
and, in the prefix case, the match is anchored at the text start: everything
before the first matched token strips to nothing under `_LEADING_STRIP`. -/
theorem C3_amended_ok :
    (∀ (text : List Char) (phrases : List (List Char)),
        findPrefixSpan text phrases ≠ [] →
        ∃ ph ∈ phrases, phraseTokens ph ≠ [] ∧ phraseTokens ph <+ tokenStrsLower text ∧
          ∃ ms : List Tok, ms <+ tokenize text ∧
            ms.map (fun tk => lowerL tk.str) = phraseTokens ph ∧
            (∀ tk ∈ ms, tk.start ≤ maxPrefixChars) ∧
            ∃ tk0, ms.head? = some tk0 ∧
              stripSet (text.take tk0.start) WRAP_STRIP = []) ∧
    (∀ (text : List Char) (phrases : List (List Char)),
        findSuffixSpan text phrases ≠ [] →
        ∃ ph ∈ phrases, phraseTokens ph ≠ [] ∧ phraseTokens ph <+ tokenStrsLower text ∧
          ∃ ms : List Tok, ms <+ tokenize text ∧
            ms.map (fun tk => lowerL tk.str) = phraseTokens ph ∧
            ∀ tk ∈ ms, text.length - tk.stop ≤ maxSuffixChars) :=
  ⟨fun text phrases h => findPrefixSpan_matched text phrases h,
   fun text phrases h => findSuffixSpan_matched text phrases h⟩

set_option maxHeartbeats 4000000 in
/-- C3 witness: the amended claim at a concrete successful prefix match and a
concrete successful suffix match. -/
theorem C3_witness :
    (∃ ph ∈ INTRO_TRIGGERS,
      phraseTokens ph ≠ [] ∧ phraseTokens ph <+ tokenStrsLower c3Text ∧
        ∃ ms : List Tok, ms <+ tokenize c3Text ∧
          ms.map (fun tk => lowerL tk.str) = phraseTokens ph ∧
          (∀ tk ∈ ms, tk.start ≤ maxPrefixChars) ∧
          ∃ tk0, ms.head? = some tk0 ∧
            stripSet (c3Text.take tk0.start) WRAP_STRIP = []) ∧
    (∃ ph ∈ OUTRO_TRIGGERS,
      phraseTokens ph ≠ [] ∧ phraseTokens ph <+ tokenStrsLower cAfterIntroText ∧
        ∃ ms : List Tok, ms <+ tokenize cAfterIntroText ∧
          ms.map (fun tk => lowerL tk.str) = phraseTokens ph ∧
          ∀ tk ∈ ms, cAfterIntroText.length - tk.stop ≤ maxSuffixChars) :=
  ⟨C3_amended_ok.1 c3Text INTRO_TRIGGERS (by decide),
   C3_amended_ok.2 cAfterIntroText OUTRO_TRIGGERS (by decide)⟩

set_option maxHeartbeats 4000000 in
/-- C4 counterexample: on the spec's end-to-end example the cleaned body
`"[00:01] Hello there.\n[blank] [unsure]"` splits into five words
(`[00:01]`, `Hello`, `there.` and the two padded placeholders), so the
reported `token_count` is 5, not 4 as claimed. -/
theorem C4_counterexample :
    (mkEntry c4Name c4Input).tokenCount = 5 ∧
    (mkEntry c4Name c4Input).tokenCount ≠ 4 := by
  decide

set_option maxHeartbeats 4000000 in
/-- C4 (amended): on the example input, the cleaned body, removed intro (with
its consumed trailing newline) and removed outro are as claimed, the scan
reports `placeholder_count = 2`, and `token_count = 5` (not 4). -/
theorem C4_amended_ok :
    strip_ai_wrapping c4Input =
      ("[00:01] Hello there.\n[blank] [unsure]".data,
       "Okay, here is the transcription of the text:\n".data,
       "\nLet me know if you need anything else.".data) ∧
    (mkEntry c4Name c4Input).placeholderCount = 2 ∧
    (mkEntry c4Name c4Input).tokenCount = 5 ∧
    (mkEntry c4Name c4Input).removeIntroText =
      some "Okay, here is the transcription of the text:".data ∧
    (mkEntry c4Name c4Input).removeOutroText =
      some "Let me know if you need anything else.".data := by
  decide

set_option maxHeartbeats 4000000 in
/-- C5 counterexample: remediating `"## # title\nmore\n"` writes
`"# title\nmore\n"`, a file with no detectable chatter; a second remediation
pass nevertheless rewrites it (the heading pass strips one more marker), so
remediation is not idempotent. -/
theorem C5_counterexample :
    remediate c5First = c5Snd ∧
    (strip_ai_wrapping c5Snd).2.1 = [] ∧
    (strip_ai_wrapping c5Snd).2.2 = [] ∧
    remediate c5Snd ≠ c5Snd := by
  decide

/-- C5 (amended): a second scan with remediation leaves a file unchanged and
reports empty removed-intro/outro provided its content has no detectable
chatter *and* the markdown cleanup is a fixpoint on it (up to the trailing
newline normalization). -/
theorem C5_amended_ok (t : List Char)
    (h1 : (strip_ai_wrapping t).2.1 = [])
    (h2 : (strip_ai_wrapping t).2.2 = [])
    (h3 : normEnd (stripMarkdownArtifacts t) = t ∨ stripMarkdownArtifacts t = t) :
    remediate t = t ∧
    (strip_ai_wrapping t).2.1 = [] ∧ (strip_ai_wrapping t).2.2 = [] := by
  have hi : introOf t = [] := by rw [saw_intro] at h1; exact h1
  have ho : outroOf t = [] := by rw [saw_outro] at h2; exact h2
  have hc : cleanedAfterOutro t = t := by
    rw [outroOf_empty_cleaned ho, introOf_empty_cleaned hi]
  have hclean : (strip_ai_wrapping t).1 = stripMarkdownArtifacts t := by
    rw [saw_cleaned, hc]
  refine ⟨?_, h1, h2⟩
  simp only [remediate]
  rw [hclean]
  by_cases hne : stripMarkdownArtifacts t = t
  · simp [hne]
  · rw [if_pos hne]
    rcases h3 with h3 | h3
    · exact h3
    · exact absurd h3 hne

set_option maxHeartbeats 4000000 in
/-- C5 witness: the amended claim at the already-clean file `"hello\n"`. -/
theorem C5_witness :
    (strip_ai_wrapping "hello\n".data).2.1 = [] ∧
    remediate "hello\n".data = "hello\n".data :=
  ⟨by decide,
   (C5_amended_ok "hello\n".data (by decide) (by decide)
     (Or.inl (by decide))).1⟩

set_option maxHeartbeats 4000000 in
/-- C6 counterexample: on `"Hi.\nLet me know if you need anything else.\n"`
the completed suffix match ends at offset 41 and the raw tail `".\n"` contains
a newline, yet the match is accepted and a suffix is stripped: the rejection
tests are applied to the tail stripped of whitespace and quotes, not to the
untouched tail. -/
theorem C6_counterexample :
    findSuffixMatch c6CexText OUTRO_TRIGGERS = some (4, 41) ∧
    (c6CexText.drop 41).contains '\n' = true ∧
    findSuffixSpan c6CexText OUTRO_TRIGGERS ≠ [] := by
  decide

set_option maxHeartbeats 4000000 in
/-- C6 (amended): a completed backward suffix match is accepted only when its
tail after the match end, once stripped of whitespace/quote/BOM characters, is
empty or contains no newline, has at most 120 characters and at most 16 word
tokens; in particular the spec's example of an outro phrase followed by
substantial trailing content keeps its suffix unstripped. -/
theorem C6_amended_ok :
    (∀ (text : List Char) (phrases : List (List Char)) (s e : Nat),
        findSuffixMatch text phrases = some (s, e) → tailOkB text e = true) ∧
    findSuffixSpan c6SpecExample OUTRO_TRIGGERS = [] :=
  ⟨fun text phrases s e h => findSuffixMatch_tailOk text phrases s e h, by decide⟩

set_option maxHeartbeats 4000000 in
/-- C6 witness: the amended claim at a concrete accepted suffix match. -/
theorem C6_witness :
    findSuffixMatch cAfterIntroText OUTRO_TRIGGERS = some (38, 75) ∧
    tailOkB cAfterIntroText 75 = true :=
  ⟨by decide,
   C6_amended_ok.1 cAfterIntroText OUTRO_TRIGGERS 38 75 (by decide)⟩

/-- C7: the confidence score is monotonically non-increasing in the placeholder
ratio and in the repetition ratio, always lies in `[0, 100]`, equals 100
exactly when both ratios are 0, and the repetition ratio always lies in
`[0, 1]`. -/
theorem C7_ok :
    (∀ p₁ p₂ r : ℚ, p₁ ≤ p₂ → confidenceOf p₂ r ≤ confidenceOf p₁ r) ∧
    (∀ p r₁ r₂ : ℚ, r₁ ≤ r₂ → confidenceOf p r₂ ≤ confidenceOf p r₁) ∧
    (∀ t : List Char, 0 ≤ compute_confidence t ∧ compute_confidence t ≤ 100) ∧
    (∀ t : List Char, compute_confidence t = 100 ↔
      placeholderRatioOf t = 0 ∧ compute_repetition_ratio t = 0) ∧
    (∀ t : List Char,
      0 ≤ compute_repetition_ratio t ∧ compute_repetition_ratio t ≤ 1) := by
  refine ⟨?_, ?_, ?_, ?_, fun t => ⟨rep_nonneg t, rep_le_one t⟩⟩
  · intro p₁ p₂ r h
    unfold confidenceOf
    simp only [minQ_eq_min]
    have hm : min 1 (p₁ + r) ≤ min 1 (p₂ + r) :=
      min_le_min (le_refl 1) (by linarith)
    linarith
  · intro p r₁ r₂ h
    unfold confidenceOf
    simp only [minQ_eq_min]
    have hm : min 1 (p + r₁) ≤ min 1 (p + r₂) :=
      min_le_min (le_refl 1) (by linarith)
    linarith
  · intro t
    have hp := placeholderRatio_nonneg t
    have hr0 := rep_nonneg t
    unfold compute_confidence confidenceOf
    simp only [minQ_eq_min]
    constructor
    · have : min 1 (placeholderRatioOf t + compute_repetition_ratio t) ≤ 1 :=
        min_le_left 1 _
      linarith
    · have : (0 : ℚ) ≤ min 1 (placeholderRatioOf t + compute_repetition_ratio t) :=
        le_min zero_le_one (by linarith)
      linarith
  · intro t
    have hp := placeholderRatio_nonneg t
    have hr0 := rep_nonneg t
    unfold compute_confidence confidenceOf
    simp only [minQ_eq_min]
    constructor
    · intro h
      have hm : min 1 (placeholderRatioOf t + compute_repetition_ratio t) = 0 := by
        linarith
      have hpr : placeholderRatioOf t + compute_repetition_ratio t = 0 := by
        rcases le_total (placeholderRatioOf t + compute_repetition_ratio t) 1 with hle | hle
        · rw [min_eq_right hle] at hm
          exact hm
        · rw [min_eq_left hle] at hm
          norm_num at hm
      constructor
      · linarith
      · linarith
    · intro h
      rw [h.1, h.2]
      norm_num

/-- C7 witness: the monotonicity parts of the claim at concrete ratios. -/
theorem C7_witness :
    confidenceOf (1 / 2) 0 ≤ confidenceOf (1 / 4) 0 ∧
    confidenceOf 0 (3 / 4) ≤ confidenceOf 0 (1 / 4) :=
  ⟨C7_ok.1 (1 / 4) (1 / 2) 0 (by norm_num),
   C7_ok.2.1 0 (1 / 4) (3 / 4) (by norm_num)⟩

set_option maxHeartbeats 4000000 in
/-- C8 counterexample: `scan_folder` sorts with the plain path order, which is
case-sensitive: the files `B.txt`, `a.txt` are reported in the order
`[B.txt, a.txt]`, which is not sorted case-insensitively (`a.txt` would have to
come first). -/
theorem C8_counterexample :
    ((scanFolder c8Files (some 50)).1.map (fun e => e.file)) =
      ["B.txt".data, "a.txt".data] ∧
    ¬ (["B.txt".data, "a.txt".data].Pairwise (fun a b => ciStrLeSpec a b = true)) := by
  constructor
  · decide
  · decide

/-- C8 (amended): the `all` list of the Scan Result contains its entries
ordered by filename compared case-sensitively (by code point), and the
threshold-filtered list is exactly the subsequence of `all` (same relative
order) whose computed confidence is at most the threshold. -/
theorem C8_amended_ok (files : List (List Char × Option (List Char))) (τ : ℚ) :
    (scanFolder files (some τ)).2 =
      ((scanFolder files (some τ)).1).filter (fun e => decide (e.rawConfidence ≤ τ)) ∧
    (scanFolder files (some τ)).2 <+ (scanFolder files (some τ)).1 ∧
    ((scanFolder files (some τ)).1.map (fun e => e.file)).Pairwise
      (fun a b => strLe a b = true) := by
  have hover := processFiles_over_filter (List.insertionSort fileLe files) τ
  refine ⟨hover, ?_, ?_⟩
  · rw [scanFolder, hover]
    exact List.filter_sublist _
  · rw [scanFolder, processFiles_map_file]
    have hs : List.Sorted fileLe (List.insertionSort fileLe files) :=
      List.sorted_insertionSort fileLe files
    have hp : ((List.insertionSort fileLe files).filter
        (fun f => f.2.isSome)).Pairwise fileLe :=
      List.Pairwise.sublist (List.filter_sublist _) hs
    exact List.pairwise_map.mpr hp

/-- C9: a file that cannot be read or decoded (modelled as `none` content) is
omitted from every list of the Scan Result, the scan continues with the
remaining files (the result is the same as scanning only the readable files),
and no error is surfaced — the scan is a total function into the result type. -/
theorem C9_ok :
    (∀ (l : List (List Char × Option (List Char))) (th : Option ℚ),
        processFiles l th = processFiles (l.filter (fun f => f.2.isSome)) th) ∧
    (∀ (files : List (List Char × Option (List Char))) (th : Option ℚ),
        (scanFolder files th).1.map (fun e => e.file) =
          ((List.insertionSort fileLe files).filter (fun f => f.2.isSome)).map
            (fun f => f.1)) :=
  ⟨processFiles_skip,
   fun files th => by rw [scanFolder, processFiles_map_file]⟩

set_option maxHeartbeats 4000000 in
/-- C10: the heuristic outro detector returns the empty string for every text
with at most one non-blank line, so it can never strip a document's only
non-blank line; the intro heuristic has no such guard and strips the
single-line document `"This is the transcription:"` entirely. -/
theorem C10_ok :
    (∀ text : List Char,
        (((splitlinesKeep text).map stripWS).filter (fun l => l ≠ [])).length ≤ 1 →
        detectOutroHeuristic text = []) ∧
    detectIntroHeuristic c10Intro = c10Intro ∧
    (strip_ai_wrapping c10Intro).1 = [] := by
  refine ⟨?_, by decide, by decide⟩
  intro text h
  simp only [detectOutroHeuristic]
  split_ifs with h1
  · rfl
  · rfl

/-- C10 witness: the guard of the outro heuristic at a one-line document. -/
theorem C10_witness :
    detectOutroHeuristic "Hello.".data = [] :=
  C10_ok.1 "Hello.".data (by decide)

end TQC
